import Mathlib

/-!
Verification of the skills-cli install state and transaction subsystem.

Shallow embedding of the validation gate (src/skills/validate.ts), the
staged installer (src/install: copier), the transaction coordinator
(src/install: transaction), and the manifest store with its schema and
lock (src/state: install-manifest, manifest-schema).  Pure TypeScript
functions are translated to Lean functions over `String` / `List Char`;
JSON values are modelled by an inductive `JVal`; filesystem effects are
made explicit (published target sets, staging residue flags); the lock
loop is modelled with an environment oracle and an explicit fuel bound.
-/

namespace SkillsCli

/-! ## Validation gate (src/skills/validate.ts) -/

/-- Model of `ValidationResult` from validate.ts: valid flag plus error list. -/
structure ValidationResult where
  valid : Bool
  errors : List String
  deriving Repr, DecidableEq

/-- The `BLOCKED_EXTENSIONS` denylist, in source order. -/
def BLOCKED_EXTENSIONS : List String :=
  [".exe", ".dll", ".dylib", ".so", ".bat", ".cmd", ".com",
   ".msi", ".scr", ".pif", ".vbs", ".js", ".cjs", ".mjs",
   ".sh", ".py", ".rb", ".pl"]

/-- A character matched by the safe-name class `[a-z0-9_-]`
(complement of `UNSAFE_NAME_RE`). -/
def allowedNameChar (c : Char) : Bool :=
  ('a' ≤ c && c ≤ 'z') || ('0' ≤ c && c ≤ '9') || c == '_' || c == '-'

/-- Test `UNSAFE_NAME_RE.test(name)`: some character outside `[a-z0-9_-]`. -/
def invalidNameCharTest (name : String) : Bool :=
  name.data.any (fun c => !allowedNameChar c)

/-- JavaScript `string.length` counts UTF-16 code units: astral code
points count twice. -/
def utf16Len : List Char → Nat
  | [] => 0
  | c :: rest => (if 0x10000 ≤ c.toNat then 2 else 1) + utf16Len rest

/-- Whether the first character is `c` (JS `name.startsWith(c)` for a
one-character prefix). -/
def headIs (c : Char) (s : String) : Bool :=
  match s.data with
  | [] => false
  | d :: _ => d == c

/-- Model of `validateSkillName` from validate.ts, line for line: empty name short
circuits; otherwise the four checks push their messages in order. -/
def validateSkillName (name : String) : ValidationResult :=
  if name = "" then
    { valid := false, errors := ["Skill name is required"] }
  else
    let e1 := if 128 < utf16Len name.data then
        ["Skill name must be 128 characters or fewer"] else []
    let e2 := if invalidNameCharTest name then
        ["Skill name \"" ++ name ++ "\" contains invalid characters. Use only lowercase letters, numbers, hyphens, and underscores."] else []
    let e3 := if headIs '-' name || headIs '_' name then
        ["Skill name must not start with a hyphen or underscore"] else []
    let e4 := if name = "." ∨ name = ".." then
        ["Skill name must not be \".\" or \"..\""] else []
    let errs := e1 ++ e2 ++ e3 ++ e4
    { valid := errs.isEmpty, errors := errs }

/-- The suffix of the character list starting at the last `'.'`
(models `lower.slice(lower.lastIndexOf('.'))`; `none` when there is no
dot, modelling `lastIndexOf` returning `-1`). -/
def lastDotSuffix : List Char → Option (List Char)
  | [] => none
  | c :: rest =>
    match lastDotSuffix rest with
    | some s => some s
    | none => if c = '.' then some (c :: rest) else none

/-- Model of `hasBlockedFileType` from validate.ts: lowercase the filename, take
the substring from the last dot, and test membership in the denylist. -/
def hasBlockedFileType (filename : String) : Bool :=
  let lower := filename.data.map Char.toLower
  match lastDotSuffix lower with
  | none => false
  | some ext => BLOCKED_EXTENSIONS.contains (String.mk ext)

/-! ### Percent decoding (`decodeURIComponent`, ECMA-262 Decode) -/

/-- Value of a hex digit, or `none`. -/
def hexDigit : Char → Option Nat := fun c =>
  if '0' ≤ c ∧ c ≤ '9' then some (c.toNat - '0'.toNat)
  else if 'a' ≤ c ∧ c ≤ 'f' then some (c.toNat - 'a'.toNat + 10)
  else if 'A' ≤ c ∧ c ≤ 'F' then some (c.toNat - 'A'.toNat + 10)
  else none

/-- Parse a `%XX` escape at the head of the list, returning the byte and
the remainder. -/
def percentByte : List Char → Option (Nat × List Char)
  | '%' :: h1 :: h2 :: rest => do
    let a ← hexDigit h1
    let b ← hexDigit h2
    some (a * 16 + b, rest)
  | _ => none

/-- Parse a `%XX` escape that must be a UTF-8 continuation byte
(`0x80–0xBF`); returns its 6 payload bits. -/
def contByte (l : List Char) : Option (Nat × List Char) := do
  let (b, rest) ← percentByte l
  if 0x80 ≤ b ∧ b ≤ 0xBF then some (b - 0x80, rest) else none

/-- Decode one percent-escaped code point (1–4 UTF-8 bytes) at the head
of the list.  Enforces the ECMA-262 Decode constraints: continuation
bytes well formed, no overlong encodings, no surrogates, max U+10FFFF. -/
def decodePercentSeq (l : List Char) : Option (Char × List Char) := do
  let (b, r1) ← percentByte l
  if b < 0x80 then
    some (Char.ofNat b, r1)
  else if 0xC0 ≤ b ∧ b ≤ 0xDF then do
    let (b1, r2) ← contByte r1
    let cp := (b - 0xC0) * 64 + b1
    if 0x80 ≤ cp then some (Char.ofNat cp, r2) else none
  else if 0xE0 ≤ b ∧ b ≤ 0xEF then do
    let (b1, r2) ← contByte r1
    let (b2, r3) ← contByte r2
    let cp := (b - 0xE0) * 4096 + b1 * 64 + b2
    if 0x800 ≤ cp ∧ ¬(0xD800 ≤ cp ∧ cp ≤ 0xDFFF) then some (Char.ofNat cp, r3) else none
  else if 0xF0 ≤ b ∧ b ≤ 0xF7 then do
    let (b1, r2) ← contByte r1
    let (b2, r3) ← contByte r2
    let (b3, r4) ← contByte r3
    let cp := (b - 0xF0) * 262144 + b1 * 4096 + b2 * 64 + b3
    if 0x10000 ≤ cp ∧ cp ≤ 0x10FFFF then some (Char.ofNat cp, r4) else none
  else
    none

/-- Decoding loop; `fuel` bounds the recursion (each step consumes at
least one character, so `fuel = length` suffices). -/
def decodeLoop : Nat → List Char → Option (List Char)
  | _, [] => some []
  | 0, _ :: _ => none
  | fuel + 1, c :: rest =>
    if c = '%' then
      match decodePercentSeq (c :: rest) with
      | none => none
      | some (ch, rest') => (decodeLoop fuel rest').map (ch :: ·)
    else
      (decodeLoop fuel rest).map (c :: ·)

/-- Model of `decodeURIComponent`: `none` models a thrown `URIError`. -/
def decodeURIComponentM (s : String) : Option String :=
  (decodeLoop s.data.length s.data).map String.mk

/-- Model of `decodePath` from validate.ts: decode, falling back to the raw path
when `decodeURIComponent` throws. -/
def decodePath (path : String) : String :=
  (decodeURIComponentM path).getD path

/-! ### `path.posix.normalize` model -/

/-- JS `str.split('/')` on a character list (empty pieces kept, as in
JavaScript). -/
def splitOnChar (c : Char) : List Char → List (List Char)
  | [] => [[]]
  | x :: rest =>
    match splitOnChar c rest with
    | [] => [[x]]
    | s :: ss => if x = c then [] :: s :: ss else (x :: s) :: ss

/-- Split a string on `'/'` into segment strings. -/
def splitSlash (s : String) : List String :=
  (splitOnChar '/' s.data).map String.mk

/-- Core of Node's `normalizeString`: resolve `.` and `..` segments over
a reversed stack.  `allowAboveRoot` is `!isAbsolute`. -/
def normSegs (allowAboveRoot : Bool) : List String → List String → List String
  | stack, [] => stack.reverse
  | stack, s :: rest =>
    if s = "" ∨ s = "." then normSegs allowAboveRoot stack rest
    else if s = ".." then
      match stack with
      | [] => if allowAboveRoot then normSegs allowAboveRoot [".."] rest
              else normSegs allowAboveRoot [] rest
      | t :: stack' =>
        if t = ".." then normSegs allowAboveRoot (".." :: t :: stack') rest
        else normSegs allowAboveRoot stack' rest
    else normSegs allowAboveRoot (s :: stack) rest

/-- Join segments with `'/'`. -/
def joinSlash : List String → String
  | [] => ""
  | [s] => s
  | s :: rest => s ++ "/" ++ joinSlash rest

/-- Whether the first character of the string is `'/'`. -/
def startsWithSlash (s : String) : Bool := headIs '/' s

/-- Whether the last character of the string is `'/'`. -/
def endsWithSlash (s : String) : Bool :=
  match s.data.getLast? with
  | some '/' => true
  | _ => false

/-- Model of `path.posix.normalize`, following Node's implementation. -/
def pathNormalize (p : String) : String :=
  if p = "" then "."
  else
    let isAbs := startsWithSlash p
    let trailing := endsWithSlash p
    let body := joinSlash (normSegs (!isAbs) [] (splitSlash p))
    if body = "" then
      if isAbs then "/" else if trailing then "./" else "."
    else
      let body := if trailing then body ++ "/" else body
      if isAbs then "/" ++ body else body

/-! ### `validatePath` -/

/-- Backslash replacement `path.replace(/\\/g, '/')`. -/
def replaceBackslash (s : String) : String :=
  String.mk (s.data.map (fun c => if c = '\\' then '/' else c))

/-- Segments of a path string after backslash replacement and `split('/')` with
`filter(Boolean)` (empty strings dropped). -/
def pathSegments (s : String) : List String :=
  (splitSlash (replaceBackslash s)).filter (fun x => x ≠ "")

/-- Model of `validatePath` from validate.ts: decode first, then check traversal
on the decoded segments and on the normalized segments, absolute paths,
and NUL bytes; errors accumulate in source order. -/
def validatePath (path : String) : ValidationResult :=
  let decodedPath := decodePath path
  let decodedSegments := pathSegments decodedPath
  let normalized := pathNormalize decodedPath
  let e1 := if decodedSegments.contains ".." then
      ["Path traversal detected: \"" ++ path ++ "\""] else []
  let segments := pathSegments normalized
  -- source: `!errors.some(e => e.includes('traversal'))`; at this point
  -- errors = e1, whose sole message contains "traversal"
  let e2 := if e1.isEmpty ∧ segments.contains ".." then
      ["Path traversal detected: \"" ++ path ++ "\""] else []
  let e3 := if startsWithSlash decodedPath then
      ["Absolute paths not allowed: \"" ++ path ++ "\""] else []
  let e4 := if decodedPath.data.contains '\x00' then
      ["Null byte not allowed in path: \"" ++ path ++ "\""] else []
  let errs := e1 ++ e2 ++ e3 ++ e4
  { valid := errs.isEmpty, errors := errs }

/-! ## Manifest schema and store (src/state/manifest-schema.ts, install-manifest.ts) -/

/-- Constant `MANIFEST_SCHEMA_VERSION = 1`. -/
def MANIFEST_SCHEMA_VERSION : Int := 1

/-- Install scope. -/
inductive Scope where
  | project
  | user
  deriving Repr, DecidableEq

/-- The string a scope interpolates to in a template literal. -/
def Scope.toStr : Scope → String
  | .project => "project"
  | .user => "user"

/-- Model of `manifestKey` from install-manifest.ts:
`` `${agent}:${scope}:${skillName}` ``. -/
def manifestKey (agent : String) (scope : Scope) (skillName : String) : String :=
  agent ++ ":" ++ scope.toStr ++ ":" ++ skillName

/-- JSON values, the decoded form manipulated by `JSON.parse` /
`JSON.stringify`. -/
inductive JVal where
  | null
  | bool (b : Bool)
  | num (n : Int)
  | str (s : String)
  | arr (elems : List JVal)
  | obj (fields : List (String × JVal))

/-- Property lookup `obj.name` on a decoded JSON value: objects look the
field up; every other shape yields `undefined` (`none`).  (Arrays only
carry numeric indices, and the property names used by the manifest code
are never numeric.) -/
def JVal.getProp : JVal → String → Option JVal
  | .obj fields, name => (fields.find? (fun f => f.fst = name)).map Prod.snd
  | _, _ => none

/-- JavaScript truthiness of a decoded JSON value. -/
def JVal.truthy : JVal → Bool
  | .null => false
  | .bool b => b
  | .num n => n ≠ 0
  | .str s => s ≠ ""
  | .arr _ => true
  | .obj _ => true

/-- The test `typeof v === 'object'` for a decoded JSON value (`null`, arrays and
objects). -/
def JVal.isObjectType : JVal → Bool
  | .null => true
  | .arr _ => true
  | .obj _ => true
  | _ => false

/-- The test `!data || typeof data !== 'object'` — the not-a-usable-object test
shared by `validateManifest` and `migrateManifest`. -/
def JVal.notUsableObject (v : JVal) : Bool :=
  !v.truthy || !v.isObjectType

/-- Model of `Object.entries` on a decoded JSON value. -/
def JVal.entries : JVal → List (String × JVal)
  | .obj fields => fields
  | .arr elems => (elems.enum.map fun p => (toString p.1, p.2))
  | _ => []

/-- JS `v === k` for a possibly-undefined decoded value against a number
literal (`obj.schema_version === MANIFEST_SCHEMA_VERSION`). -/
def jsEqNum (v : Option JVal) (k : Int) : Bool :=
  match v with
  | some (.num n) => n == k
  | _ => false

/-- Truthiness of `entry.name` (missing property is `undefined`, falsy). -/
def JVal.truthyProp (v : JVal) (name : String) : Bool :=
  match v.getProp name with
  | some w => w.truthy
  | none => false

/-- Result of `createEmptyManifest()` as a decoded JSON value. -/
def createEmptyManifestV : JVal :=
  .obj [("schema_version", .num MANIFEST_SCHEMA_VERSION), ("skills", .obj [])]

/-- Per-entry field checks of `validateManifest`, in source order. -/
def validateEntryV (key : String) (entry : JVal) : List String :=
  if entry.notUsableObject then
    ["skills[\"" ++ key ++ "\"] must be an object"]
  else
    (if entry.truthyProp "install_id" then [] else ["skills[\"" ++ key ++ "\"] missing install_id"]) ++
    (if entry.truthyProp "managed_root" then [] else ["skills[\"" ++ key ++ "\"] missing managed_root"]) ++
    (if entry.truthyProp "source_url" then [] else ["skills[\"" ++ key ++ "\"] missing source_url"]) ++
    (if entry.truthyProp "resolved_commit" then [] else ["skills[\"" ++ key ++ "\"] missing resolved_commit"]) ++
    (if entry.truthyProp "skill_name" then [] else ["skills[\"" ++ key ++ "\"] missing skill_name"]) ++
    (if entry.truthyProp "agent" then [] else ["skills[\"" ++ key ++ "\"] missing agent"]) ++
    (if entry.truthyProp "scope" then [] else ["skills[\"" ++ key ++ "\"] missing scope"])

/-- Model of `validateManifest` from manifest-schema.ts. -/
def validateManifestV (data : JVal) : List String :=
  if data.notUsableObject then ["Manifest must be a JSON object"]
  else
    let e1 := if jsEqNum (data.getProp "schema_version") MANIFEST_SCHEMA_VERSION then []
      else ["Expected schema_version 1"]
    match data.getProp "skills" with
    | some skills =>
      if skills.truthy && skills.isObjectType then
        e1 ++ (skills.entries.flatMap fun kv => validateEntryV kv.1 kv.2)
      else e1 ++ ["Manifest must have a \"skills\" object"]
    | none => e1 ++ ["Manifest must have a \"skills\" object"]

/-- Model of `migrateManifest` from manifest-schema.ts (the revision shipped in
the source tree): non-objects and unknown versions both reset to the
empty manifest; the current version passes through unchanged.  Note that
it never fails: a numerically greater `schema_version` is also reset. -/
def migrateManifestV (data : JVal) : JVal :=
  if data.notUsableObject then createEmptyManifestV
  else if jsEqNum (data.getProp "schema_version") MANIFEST_SCHEMA_VERSION then data
  else createEmptyManifestV

/-- Model of `readManifest` from install-manifest.ts, computed on the decoded
content of the manifest file (`none` = file absent).  `migrateManifestV`
is total, so the `ManifestSchemaVersionError` rethrow branch of the
source is unreachable and reading never fails. -/
def readManifestV (file : Option JVal) : JVal :=
  match file with
  | none => createEmptyManifestV
  | some data =>
    let migrated := migrateManifestV data
    if (validateManifestV migrated).length > 0 then createEmptyManifestV
    else migrated

/-! ### Structured manifests and the write path -/

/-- Model of `ManifestEntry` from manifest-schema.ts.  `ref`/`subpath` are
`string | undefined`; `JSON.stringify` drops the fields when
`undefined`. -/
structure ManifestEntry where
  install_id : String
  source_url : String
  source_type : String
  resolved_commit : String
  ref : Option String
  subpath : Option String
  skill_name : String
  skill_path : String
  agent : String
  scope : Scope
  managed_root : String
  installed_at : String
  created_at : String
  updated_at : String
  deriving Repr, DecidableEq

/-- A structured manifest: `{ schema_version, skills: Record<string, ManifestEntry> }`. -/
structure Manifest where
  schema_version : Int
  skills : List (String × ManifestEntry)
  deriving Repr, DecidableEq

/-- An optional string field under `JSON.stringify`: present when
`some`, dropped when `undefined`. -/
def encodeOptField (name : String) : Option String → List (String × JVal)
  | some s => [(name, .str s)]
  | none => []

/-- The `JSON.stringify` image of a `ManifestEntry` (declared field order;
`undefined` fields dropped). -/
def encodeEntry (e : ManifestEntry) : JVal :=
  .obj ([("install_id", .str e.install_id),
         ("source_url", .str e.source_url),
         ("source_type", .str e.source_type),
         ("resolved_commit", .str e.resolved_commit)] ++
        encodeOptField "ref" e.ref ++
        encodeOptField "subpath" e.subpath ++
        [("skill_name", .str e.skill_name),
         ("skill_path", .str e.skill_path),
         ("agent", .str e.agent),
         ("scope", .str e.scope.toStr),
         ("managed_root", .str e.managed_root),
         ("installed_at", .str e.installed_at),
         ("created_at", .str e.created_at),
         ("updated_at", .str e.updated_at)])

/-- The `JSON.stringify` image of a whole manifest.  `writeManifest`
serializes exactly this value (then `JSON.parse` on the read side
returns it unchanged: temp-file write plus rename). -/
def writeManifestV (m : Manifest) : JVal :=
  .obj [("schema_version", .num m.schema_version),
        ("skills", .obj (m.skills.map fun kv => (kv.1, encodeEntry kv.2)))]

/-- Read a decoded JSON string field. -/
def JVal.getStr (v : JVal) (name : String) : Option String :=
  match v.getProp name with
  | some (.str s) => some s
  | _ => none

/-- Decode a manifest entry back out of its JSON image (the shape the
TypeScript cast `data as Manifest` assumes). -/
def decodeEntry (v : JVal) : Option ManifestEntry := do
  let install_id ← v.getStr "install_id"
  let source_url ← v.getStr "source_url"
  let source_type ← v.getStr "source_type"
  let resolved_commit ← v.getStr "resolved_commit"
  let ref := v.getStr "ref"
  let subpath := v.getStr "subpath"
  let skill_name ← v.getStr "skill_name"
  let skill_path ← v.getStr "skill_path"
  let agent ← v.getStr "agent"
  let scope ← match v.getStr "scope" with
    | some "project" => some Scope.project
    | some "user" => some Scope.user
    | _ => none
  let managed_root ← v.getStr "managed_root"
  let installed_at ← v.getStr "installed_at"
  let created_at ← v.getStr "created_at"
  let updated_at ← v.getStr "updated_at"
  some { install_id, source_url, source_type, resolved_commit, ref, subpath,
         skill_name, skill_path, agent, scope, managed_root, installed_at,
         created_at, updated_at }

/-- Decode each `skills` record field in order. -/
def decodeSkills : List (String × JVal) → Option (List (String × ManifestEntry))
  | [] => some []
  | kv :: rest => do
    let e ← decodeEntry kv.2
    let restD ← decodeSkills rest
    some ((kv.1, e) :: restD)

/-- Decode a whole manifest out of its JSON image. -/
def decodeManifest (v : JVal) : Option Manifest := do
  let ver ← match v.getProp "schema_version" with
    | some (.num n) => some n
    | _ => none
  let skills ← match v.getProp "skills" with
    | some (.obj fields) => decodeSkills fields
    | _ => none
  some { schema_version := ver, skills }

/-- The structural validity hypothesis of the round-trip law: current
schema version, and every entry carries (non-empty) required fields, the
condition `validateManifest` checks by truthiness. -/
abbrev ManifestEntry.requiredFieldsPresent (e : ManifestEntry) : Prop :=
  e.install_id ≠ "" ∧ e.managed_root ≠ "" ∧ e.source_url ≠ "" ∧
  e.resolved_commit ≠ "" ∧ e.skill_name ≠ "" ∧ e.agent ≠ ""

/-- A concrete well-formed manifest entry, for witness instances. -/
def sampleEntry : ManifestEntry :=
  { install_id := "id1", source_url := "https://github.com/org/repo", source_type := "git",
    resolved_commit := "abc1234567890", ref := some "main", subpath := none,
    skill_name := "alpha", skill_path := "alpha", agent := "roo", scope := .project,
    managed_root := "/tmp/skills/alpha", installed_at := "2026-01-01T00:00:00Z",
    created_at := "2026-01-01T00:00:00Z", updated_at := "2026-01-01T00:00:00Z" }

/-- A concrete one-entry manifest at the current schema version. -/
def sampleManifest : Manifest :=
  { schema_version := 1, skills := [("roo:project:alpha", sampleEntry)] }

/-! ## Manifest lock (install-manifest.ts) -/

/-- Constant `LOCK_TIMEOUT_MS`. -/
def LOCK_TIMEOUT_MS : Nat := 5000

/-- Constant `LOCK_INITIAL_DELAY_MS`. -/
def LOCK_INITIAL_DELAY_MS : Nat := 25

/-- Outcome of `acquireManifestLock`. -/
inductive LockOutcome where
  | acquired
  | timedOut
  | outOfFuel
  deriving Repr, DecidableEq

/-- One state of the polling loop of `acquireManifestLock`, modelled
with an environment:  `env i` tells whether the exclusive create
(`open(lockPath, 'wx')`) succeeds at the i-th attempt — under the
claim's hypothesis the lock file exists and stays younger than
`LOCK_STALE_MS`, so `cleanupStaleLock` never removes it and `env` stays
`false`.  `eps i` is extra real time elapsing in the i-th iteration
beyond the requested sleep.  Returns the outcome, the list of sleep
delays requested, and the final elapsed time; `fuel` bounds the
recursion and is a model artifact (`200` always suffices, since every
iteration advances elapsed time by at least 25 ms). -/
def acquireLoop (env : Nat → Bool) (eps : Nat → Nat) :
    Nat → Nat → Nat → Nat → LockOutcome × List Nat × Nat
  | 0, i, elapsed, _ =>
    if elapsed < LOCK_TIMEOUT_MS then
      if env i then (.acquired, [], elapsed) else (.outOfFuel, [], elapsed)
    else
      (.timedOut, [], elapsed)
  | fuel + 1, i, elapsed, delay =>
    if elapsed < LOCK_TIMEOUT_MS then
      if env i then (.acquired, [], elapsed)
      else
        let r := acquireLoop env eps fuel (i + 1) (elapsed + delay + eps i) (min (delay * 2) 250)
        (r.1, delay :: r.2.1, r.2.2)
    else
      (.timedOut, [], elapsed)

/-- Model of `acquireManifestLock`: the loop starting at elapsed 0 with the
initial 25 ms delay. -/
def acquireManifestLock (env : Nat → Bool) (eps : Nat → Nat) (fuel : Nat) :
    LockOutcome × List Nat × Nat :=
  acquireLoop env eps fuel 0 0 LOCK_INITIAL_DELAY_MS

/-- Model of `withManifestLock`: acquire, run `fn` over the manifest state,
release.  On a timeout the error propagates and the manifest is never
touched. -/
def withManifestLock (env : Nat → Bool) (eps : Nat → Nat) (fuel : Nat)
    (fn : JVal → JVal) (m : JVal) : Except String JVal × JVal :=
  match (acquireManifestLock env eps fuel).1 with
  | .acquired => (.ok (fn m), fn m)
  | _ => (.error "Timed out waiting for manifest lock", m)

/-- The delay evolution `d ↦ min (d * 2) 250` iterated `k` times. -/
def delayEvolve : Nat → Nat → Nat
  | d, 0 => d
  | d, k + 1 => delayEvolve (min (d * 2) 250) k

/-- A contended environment: the exclusive create never succeeds (the
lock file exists for the whole attempt). -/
def envHeld : Nat → Bool := fun _ => false

/-- An idealized clock: sleeps take exactly the requested time. -/
def epsZero : Nat → Nat := fun _ => 0

/-! ## Staged installer (copier: copySkill, listFilesRecursive) -/

mutual
/-- A directory entry of the (already staged) source tree, as `readdir
withFileTypes` reports it. -/
inductive FTree where
  | file (name : String)
  | symlink (name : String)
  | dir (name : String) (children : FForest)

/-- A list of directory entries in `readdir` order. -/
inductive FForest where
  | nil
  | cons (head : FTree) (tail : FForest)
end

mutual
/-- Whether a tree contains a symbolic link anywhere. -/
def FTree.hasSymlink : FTree → Bool
  | .file _ => false
  | .symlink _ => true
  | .dir _ children => children.hasSymlink

/-- Whether a forest contains a symbolic link anywhere. -/
def FForest.hasSymlink : FForest → Bool
  | .nil => false
  | .cons t rest => t.hasSymlink || rest.hasSymlink
end

mutual
/-- Model of `listFilesRecursive` on one entry: symlinks throw, directories
recurse, files yield their full path. -/
def FTree.listFiles : String → FTree → Except String (List String)
  | dir, .file n => .ok [dir ++ "/" ++ n]
  | dir, .symlink n => .error ("Symlinks not allowed in skill packages: " ++ dir ++ "/" ++ n)
  | dir, .dir n children => FForest.listFiles (dir ++ "/" ++ n) children

/-- Model of `listFilesRecursive` over the entries of a directory, in order;
the first symlink aborts the whole walk with a thrown error. -/
def FForest.listFiles : String → FForest → Except String (List String)
  | _, .nil => .ok []
  | dir, .cons t rest => do
    let sub ← t.listFiles dir
    let restFiles ← FForest.listFiles dir rest
    .ok (sub ++ restFiles)
end

/-- Result record of `copySkill` (`CopyResult` in copier.ts). -/
structure CopyResultR where
  success : Bool
  filesCount : Nat
  targetPath : String
  error : Option String
  deriving Repr, DecidableEq

/-- Filesystem-visible outcome of one `copySkill` call:  whether the
target path was replaced by the staged content (before the rename
nothing observable changes at the target), and whether the uniquely
named staging directory was left behind. -/
structure CopyOutcome where
  result : CopyResultR
  targetPublished : Bool
  stagingLeft : Bool
  deriving Repr, DecidableEq

/-- Model of `copySkill` from copier.ts over an ideal filesystem: the source tree
is staged (`cp` with `dereference: false` copies symlinks verbatim),
`listFilesRecursive` walks the staged tree (throwing on symlinks, caught
below with staging cleanup), blocked file types abort with an early
`return` — on that path the staging directory is not cleaned up — and
otherwise the staged tree is renamed over the target. -/
def copySkill (stagingDir : String) (source : FForest) (targetPath : String) : CopyOutcome :=
  match FForest.listFiles stagingDir source with
  | .error e =>
    -- thrown inside the try: caught, staging removed, failure returned
    { result := { success := false, filesCount := 0, targetPath, error := some e },
      targetPublished := false, stagingLeft := false }
  | .ok files =>
    let blocked := files.filter (fun f => hasBlockedFileType f)
    if blocked.isEmpty then
      { result := { success := true, filesCount := files.length, targetPath, error := none },
        targetPublished := true, stagingLeft := false }
    else
      -- early `return` inside the try block: no cleanup runs here
      { result := { success := false, filesCount := 0, targetPath,
                    error := some ("Blocked file types found: " ++ String.intercalate ", " blocked) },
        targetPublished := false, stagingLeft := true }

/-- A staged tree holding `SKILL.md` and `payload.exe` (the spec's
end-to-end blocked-payload scenario). -/
def blockedSampleForest : FForest :=
  .cons (.file "SKILL.md") (.cons (.file "payload.exe") .nil)

/-- A staged tree holding `SKILL.md` and a symbolic link. -/
def symlinkSampleForest : FForest :=
  .cons (.file "SKILL.md") (.cons (.symlink "evil-link") .nil)

/-! ## Transaction coordinator (executeInstallTransaction) -/

/-- One transaction step together with its environment-determined copy
outcome: `copyOk` is whether `copySkill` succeeds for this step. -/
structure TxStep where
  targetPath : String
  copyOk : Bool
  deriving Repr, DecidableEq

/-- Transaction result (`TransactionResult` in transaction.ts), with
`installed` holding one `CopyResult` per executed step. -/
structure TxResult where
  success : Bool
  installed : List CopyResultR
  errors : List String
  deriving Repr, DecidableEq

/-- The filesystem as the set of existing target paths. -/
abbrev FS := List String

/-- Publishing a target: `copySkill` removes an existing directory at
the target and renames the staged tree in. -/
def publishTarget (t : String) (fs : FS) : FS :=
  fs.filter (fun p => p ≠ t) ++ [t]

/-- The abstract outcome of `copySkill` for one step: success publishes
the target, failure leaves the filesystem untouched. -/
def runCopyStep (s : TxStep) (fs : FS) : CopyResultR × FS :=
  if s.copyOk then
    ({ success := true, filesCount := 0, targetPath := s.targetPath, error := none },
     publishTarget s.targetPath fs)
  else
    ({ success := false, filesCount := 0, targetPath := s.targetPath,
       error := some "copy failed" }, fs)

/-- The rollback walk: for every already recorded result that succeeded,
force-remove its target; `rmOk` tells which removals succeed (`rm`
failures are swallowed). -/
def rollbackAll (rmOk : String → Bool) (results : List CopyResultR) (fs : FS) : FS :=
  results.foldl
    (fun fs r =>
      if r.success then
        if rmOk r.targetPath then fs.filter (fun p => p ≠ r.targetPath) else fs
      else fs)
    fs

/-- The step loop of `executeInstallTransaction`: run steps in order,
collect results; on the first failure record the error, roll back every
previously committed target, and stop. -/
def txGo (rmOk : String → Bool) : List TxStep → FS → List CopyResultR → TxResult × FS
  | [], fs, acc => ({ success := true, installed := acc, errors := [] }, fs)
  | step :: rest, fs, acc =>
    let (r, fs') := runCopyStep step fs
    let acc' := acc ++ [r]
    if r.success then
      txGo rmOk rest fs' acc'
    else
      ({ success := false, installed := acc',
         errors := ["Failed to install to " ++ step.targetPath ++ ": " ++
                    (r.error.getD "unknown error")] },
       rollbackAll rmOk acc' fs')

/-- Model of `executeInstallTransaction` from transaction.ts over the abstract
step environment. -/
def executeInstallTransaction (rmOk : String → Bool) (steps : List TxStep) (fs : FS) :
    TxResult × FS :=
  txGo rmOk steps fs []

/-- A first transaction step whose copy succeeds. -/
def stepA : TxStep := ⟨"/ws/.roo/skills/alpha", true⟩

/-- A second transaction step whose copy fails. -/
def stepB : TxStep := ⟨"/ws/.codex/skills/alpha", false⟩

/-- An environment in which every rollback removal succeeds. -/
def rmAlways : String → Bool := fun _ => true

/-! ## Theorems -/

theorem charOfNat_toNat (n : Nat) (h : n < 55296) : (Char.ofNat n).toNat = n := by
  simp [Char.ofNat, Char.toNat, Nat.isValidChar, h, Char.ofNatAux, UInt32.toNat]

theorem toLower_eq_dot (c : Char) : Char.toLower c = '.' ↔ c = '.' := by
  constructor
  · intro h
    simp only [Char.toLower] at h
    split at h
    · next hc =>
      exfalso
      have h2 := congrArg Char.toNat h
      rw [charOfNat_toNat (c.toNat + 32) (by omega)] at h2
      have hd : ('.' : Char).toNat = 46 := by decide
      omega
    · exact h
  · intro h
    subst h
    decide

theorem char_le_toNat {c d : Char} (h : c ≤ d) : c.toNat ≤ d.toNat :=
  Char.le_def.mp h

theorem allowedNameChar_bmp {c : Char} (h : allowedNameChar c = true) :
    c.toNat < 65536 := by
  simp only [allowedNameChar, Bool.or_eq_true, Bool.and_eq_true, beq_iff_eq,
    decide_eq_true_eq] at h
  rcases h with (((⟨_, h2⟩ | ⟨_, h2⟩) | h) | h)
  · have := char_le_toNat h2
    have hz : ('z' : Char).toNat = 122 := by decide
    omega
  · have := char_le_toNat h2
    have hz : ('9' : Char).toNat = 57 := by decide
    omega
  · subst h; decide
  · subst h; decide

theorem utf16Len_eq_length {l : List Char}
    (h : ∀ c ∈ l, allowedNameChar c = true) : utf16Len l = l.length := by
  induction l with
  | nil => rfl
  | cons c rest ih =>
    have hc := allowedNameChar_bmp (h c (by simp))
    simp only [utf16Len, List.length_cons]
    rw [if_neg (by omega), ih (fun d hd => h d (by simp [hd]))]
    omega

theorem invalidNameCharTest_eq_false {n : String} :
    invalidNameCharTest n = false ↔ ∀ c ∈ n.data, allowedNameChar c = true := by
  simp [invalidNameCharTest, List.any_eq_true]

theorem string_ne_empty_iff {n : String} : n ≠ "" ↔ 1 ≤ n.data.length := by
  constructor
  · intro h
    by_contra hl
    apply h
    have : n.data = [] := by
      cases hd : n.data with
      | nil => rfl
      | cons c rest => rw [hd] at hl; simp at hl
    cases n
    simp_all
  · intro h he
    subst he
    simp at h

theorem validateSkillName_valid_eq (n : String) (hn : n ≠ "") :
    (validateSkillName n).valid =
      (!(decide (128 < utf16Len n.data)) && !(invalidNameCharTest n) &&
       !(headIs '-' n || headIs '_' n) && !(decide (n = "." ∨ n = ".."))) := by
  simp only [validateSkillName, if_neg hn]
  by_cases h1 : 128 < utf16Len n.data <;>
  by_cases h2 : invalidNameCharTest n = true <;>
  by_cases h3 : (headIs '-' n || headIs '_' n) = true <;>
  by_cases h4 : n = "." ∨ n = ".." <;>
  simp [h1, h2, h3, h4]

theorem validateSkillName_errors_eq (n : String) (hn : n ≠ "") :
    (validateSkillName n).errors.length =
      ((if 128 < utf16Len n.data then 1 else 0) +
       (if invalidNameCharTest n = true then 1 else 0) +
       (if (headIs '-' n || headIs '_' n) = true then 1 else 0) +
       (if n = "." ∨ n = ".." then 1 else 0)) := by
  simp only [validateSkillName, if_neg hn]
  by_cases h1 : 128 < utf16Len n.data <;>
  by_cases h2 : invalidNameCharTest n = true <;>
  by_cases h3 : (headIs '-' n || headIs '_' n) = true <;>
  by_cases h4 : n = "." ∨ n = ".." <;>
  simp [h1, h2, h3, h4]

/-- C7: `validateSkillName` accepts exactly the strings of 1–128
characters over lowercase letters, digits, `-`, `_` that do not start
with `-`/`_` and are not `.` or `..`; for non-empty names it reports one
error per violated rule (all violations, not just the first); and the
spec's examples behave as stated (`..`, `-bad`, `UPPER`, a 129-char name
fail; `my-skill_v2` passes). -/
theorem validateSkillName_spec :
    (∀ n : String, (validateSkillName n).valid = true ↔
      (1 ≤ n.data.length ∧ n.data.length ≤ 128 ∧
       (∀ c ∈ n.data, allowedNameChar c = true) ∧
       headIs '-' n = false ∧ headIs '_' n = false ∧ n ≠ "." ∧ n ≠ "..")) ∧
    (∀ n : String, n ≠ "" →
      (validateSkillName n).errors.length =
        ((if 128 < utf16Len n.data then 1 else 0) +
         (if invalidNameCharTest n = true then 1 else 0) +
         (if (headIs '-' n || headIs '_' n) = true then 1 else 0) +
         (if n = "." ∨ n = ".." then 1 else 0))) ∧
    (validateSkillName "..").valid = false ∧
    (validateSkillName "-bad").valid = false ∧
    (validateSkillName "UPPER").valid = false ∧
    (validateSkillName (String.mk (List.replicate 129 'a'))).valid = false ∧
    (validateSkillName "my-skill_v2").valid = true := by
  refine ⟨?_, validateSkillName_errors_eq, by decide, by decide, by decide, ?_, by decide⟩
  · intro n
    by_cases hn : n = ""
    · subst hn
      simp [validateSkillName]
    · rw [validateSkillName_valid_eq n hn]
      simp only [Bool.and_eq_true, Bool.not_eq_true', Bool.or_eq_false_iff,
        decide_eq_false_iff_not, not_lt, not_or]
      constructor
      · rintro ⟨⟨⟨h1, h2⟩, h3, h4⟩, h5, h6⟩
        have hall := invalidNameCharTest_eq_false.mp h2
        refine ⟨string_ne_empty_iff.mp hn, ?_, hall, h3, h4, h5, h6⟩
        rw [← utf16Len_eq_length hall]
        exact h1
      · rintro ⟨_, h2, hall, h3, h4, h5, h6⟩
        refine ⟨⟨⟨?_, invalidNameCharTest_eq_false.mpr hall⟩, h3, h4⟩, h5, h6⟩
        rw [utf16Len_eq_length hall]
        exact h2
  · set_option maxRecDepth 4000 in decide

/-- C7 witness: the all-violations count applied at the concrete name
`UPPER`. -/
theorem validateSkillName_spec_witness :
    ("UPPER" ≠ "") ∧ (validateSkillName "UPPER").errors.length =
      ((if 128 < utf16Len "UPPER".data then 1 else 0) +
       (if invalidNameCharTest "UPPER" = true then 1 else 0) +
       (if (headIs '-' "UPPER" || headIs '_' "UPPER") = true then 1 else 0) +
       (if "UPPER" = "." ∨ "UPPER" = ".." then 1 else 0)) :=
  ⟨by decide, validateSkillName_spec.2.1 "UPPER" (by decide)⟩

theorem lastDotSuffix_eq_none {l : List Char} :
    lastDotSuffix l = none ↔ '.' ∉ l := by
  induction l with
  | nil => simp [lastDotSuffix]
  | cons c rest ih =>
    simp only [lastDotSuffix, List.mem_cons]
    cases h : lastDotSuffix rest with
    | some s =>
      have hin : '.' ∈ rest := by
        by_contra hout
        exact absurd ((ih.mpr hout).symm.trans h) (by simp)
      simp [hin]
    | none =>
      have hrest := ih.mp h
      by_cases hc : c = '.'
      · simp [hc]
      · simp [if_neg hc, Ne.symm hc, hrest]

theorem lastDotSuffix_map_toLower (l : List Char) :
    lastDotSuffix (l.map Char.toLower) =
      (lastDotSuffix l).map (List.map Char.toLower) := by
  induction l with
  | nil => rfl
  | cons c rest ih =>
    simp only [List.map_cons, lastDotSuffix, ih]
    cases h : lastDotSuffix rest with
    | some s => rfl
    | none =>
      by_cases hc : c = '.'
      · simp [hc, toLower_eq_dot]
      · simp [hc, (toLower_eq_dot c).not.mpr hc]

/-- C10: `hasBlockedFileType` returns `false` for any filename without a
dot, and in general decides exactly by matching the lowercased suffix
from the last `.` against the fixed denylist. -/
theorem hasBlockedFileType_spec :
    (∀ f : String, '.' ∉ f.data → hasBlockedFileType f = false) ∧
    (∀ f : String, hasBlockedFileType f =
      match lastDotSuffix f.data with
      | none => false
      | some ext => BLOCKED_EXTENSIONS.contains (String.mk (ext.map Char.toLower))) := by
  have key : ∀ f : String, hasBlockedFileType f =
      match lastDotSuffix f.data with
      | none => false
      | some ext => BLOCKED_EXTENSIONS.contains (String.mk (ext.map Char.toLower)) := by
    intro f
    simp only [hasBlockedFileType, lastDotSuffix_map_toLower]
    cases lastDotSuffix f.data <;> rfl
  refine ⟨fun f h => ?_, key⟩
  rw [key f, lastDotSuffix_eq_none.mpr h]

/-- C10 witness: an extensionless filename is never blocked. -/
theorem hasBlockedFileType_spec_witness :
    ('.' ∉ "README".data) ∧ hasBlockedFileType "README" = false :=
  ⟨by decide, hasBlockedFileType_spec.1 "README" (by decide)⟩

theorem list_isEmpty_append (l1 l2 : List String) :
    (l1 ++ l2).isEmpty = (l1.isEmpty && l2.isEmpty) := by
  cases l1 <;> cases l2 <;> simp

/-- C6: `validatePath` rejects any input whose decoded form is absolute,
contains a NUL byte, or has a `..` among its decoded, separator-split
segments (decoding precedes the traversal check); and the spec's
examples behave as stated, including the percent-encoded traversal
`%2e%2e/x`. -/
theorem validatePath_spec :
    (∀ p : String,
      (startsWithSlash (decodePath p) = true ∨
       (decodePath p).data.contains '\x00' = true ∨
       (pathSegments (decodePath p)).contains ".." = true) →
      (validatePath p).valid = false) ∧
    (validatePath "a/../../etc/passwd").valid = false ∧
    (validatePath "/etc/passwd").valid = false ∧
    (validatePath "skills/a").valid = true ∧
    (validatePath "%2e%2e/x").valid = false := by
  refine ⟨?_, by decide, by decide, by decide, by decide⟩
  intro p hp
  rcases hp with h | h | h
  · simp [validatePath, h, list_isEmpty_append, apply_ite List.isEmpty]
  · have h' : '\x00' ∈ (decodePath p).data := by simpa using h
    simp [validatePath, h', list_isEmpty_append, apply_ite List.isEmpty]
  · have h' : ".." ∈ pathSegments (decodePath p) := by simpa using h
    simp [validatePath, h', list_isEmpty_append, apply_ite List.isEmpty]

/-- C6 witness: the absolute path `/etc/passwd` satisfies the rejection
precondition and is rejected. -/
theorem validatePath_spec_witness :
    (startsWithSlash (decodePath "/etc/passwd") = true ∨
     (decodePath "/etc/passwd").data.contains '\x00' = true ∨
     (pathSegments (decodePath "/etc/passwd")).contains ".." = true) ∧
    (validatePath "/etc/passwd").valid = false :=
  ⟨by decide, validatePath_spec.1 "/etc/passwd" (by decide)⟩

theorem append_colon_inj {l1 l2 r1 r2 : List Char} (h1 : ':' ∉ l1) (h2 : ':' ∉ l2)
    (h : l1 ++ ':' :: r1 = l2 ++ ':' :: r2) : l1 = l2 ∧ r1 = r2 := by
  induction l1 generalizing l2 with
  | nil =>
    cases l2 with
    | nil => simpa using h
    | cons c rest =>
      simp only [List.nil_append, List.cons_append, List.cons.injEq] at h
      exact absurd (h.1 ▸ List.mem_cons_self c rest) h2
  | cons c rest ih =>
    cases l2 with
    | nil =>
      simp only [List.nil_append, List.cons_append, List.cons.injEq] at h
      exact absurd (h.1.symm ▸ List.mem_cons_self c rest) h1
    | cons d rest2 =>
      simp only [List.cons_append, List.cons.injEq] at h
      obtain ⟨hcd, h'⟩ := h
      have := ih (fun hm => h1 (List.mem_cons_of_mem c hm))
        (fun hm => h2 (List.mem_cons_of_mem d hm)) h'
      exact ⟨by simp [hcd, this.1], this.2⟩

theorem string_data_inj {s t : String} (h : s.data = t.data) : s = t := by
  cases s
  cases t
  exact congrArg String.mk h

theorem manifestKey_data (a : String) (s : Scope) (n : String) :
    (manifestKey a s n).data = a.data ++ ':' :: (s.toStr.data ++ ':' :: n.data) := by
  simp [manifestKey, String.data_append]

/-- C9 counterexample: two distinct `(agent, scope, skillName)` triples
whose composite keys coincide — an agent string containing `:` defeats
the `agent:scope:skill_name` encoding. -/
theorem manifestKey_collision :
    manifestKey "x:project:y" Scope.user "z" = manifestKey "x" Scope.project "y:user:z" ∧
    ("x:project:y", Scope.user, "z") ≠ (("x" : String), Scope.project, ("y:user:z" : String)) := by
  constructor
  · decide
  · decide

/-- C9 (amended): `manifestKey` is collision-free on triples whose agent
component contains no `:` — in particular on the agents the tool
actually uses (`roo`, `copilot`, `claude-code`). -/
theorem manifestKey_injective_of_no_colon (a1 : String) (s1 : Scope) (n1 : String)
    (a2 : String) (s2 : Scope) (n2 : String)
    (h1 : ':' ∉ a1.data) (h2 : ':' ∉ a2.data)
    (h : manifestKey a1 s1 n1 = manifestKey a2 s2 n2) :
    a1 = a2 ∧ s1 = s2 ∧ n1 = n2 := by
  have hd := congrArg String.data h
  rw [manifestKey_data, manifestKey_data] at hd
  obtain ⟨ha, hrest⟩ := append_colon_inj h1 h2 hd
  refine ⟨string_data_inj ha, ?_⟩
  cases s1 <;> cases s2 <;>
    simp only [Scope.toStr] at hrest <;>
    obtain ⟨hs, hn⟩ := append_colon_inj (by decide) (by decide) hrest
  · exact ⟨rfl, string_data_inj hn⟩
  · exact absurd hs (by decide)
  · exact absurd hs (by decide)
  · exact ⟨rfl, string_data_inj hn⟩

/-- C9 witness: the amended injectivity applied at concrete colon-free
agents. -/
theorem manifestKey_injective_witness :
    (':' ∉ "roo".data) ∧
    (("roo" : String) = "roo" ∧ Scope.project = Scope.project ∧ ("alpha" : String) = "alpha") :=
  ⟨by decide,
   manifestKey_injective_of_no_colon "roo" Scope.project "alpha" "roo" Scope.project "alpha"
     (by decide) (by decide) rfl⟩

theorem decodeEntry_encodeEntry (e : ManifestEntry) : decodeEntry (encodeEntry e) = some e := by
  cases e with
  | mk install_id source_url source_type resolved_commit ref subpath skill_name skill_path agent scope managed_root installed_at created_at updated_at =>
    cases ref <;> cases subpath <;> cases scope <;>
      simp [decodeEntry, encodeEntry, encodeOptField, JVal.getStr, JVal.getProp,
        List.find?, Scope.toStr]

theorem validateEntry_encode (k : String) (e : ManifestEntry) (he : e.requiredFieldsPresent) :
    validateEntryV k (encodeEntry e) = [] := by
  obtain ⟨h1, h2, h3, h4, h5, h6⟩ := he
  cases e with
  | mk install_id source_url source_type resolved_commit ref subpath skill_name skill_path agent scope managed_root installed_at created_at updated_at =>
    cases ref <;> cases subpath <;> cases scope <;>
      simp_all [validateEntryV, encodeEntry, encodeOptField, JVal.notUsableObject,
        JVal.truthy, JVal.isObjectType, JVal.truthyProp, JVal.getProp, List.find?, Scope.toStr]

theorem validateManifest_write (m : Manifest)
    (hv : m.schema_version = MANIFEST_SCHEMA_VERSION)
    (he : ∀ kv ∈ m.skills, kv.2.requiredFieldsPresent) :
    validateManifestV (writeManifestV m) = [] := by
  simp only [validateManifestV, writeManifestV, JVal.notUsableObject, JVal.truthy,
    JVal.isObjectType, JVal.getProp, List.find?, jsEqNum, hv, MANIFEST_SCHEMA_VERSION,
    JVal.entries]
  simp only [List.mem_map, Prod.forall] at he ⊢
  simp
  intro a b x x1 hmem hxa hxb
  subst hxa
  subst hxb
  exact validateEntry_encode _ _ (he x x1 hmem)

theorem migrate_write (m : Manifest) (hv : m.schema_version = MANIFEST_SCHEMA_VERSION) :
    migrateManifestV (writeManifestV m) = writeManifestV m := by
  simp [migrateManifestV, writeManifestV, JVal.notUsableObject, JVal.truthy,
    JVal.isObjectType, JVal.getProp, List.find?, jsEqNum, hv, MANIFEST_SCHEMA_VERSION]

theorem decodeManifest_write (m : Manifest) : decodeManifest (writeManifestV m) = some m := by
  have key : ∀ l : List (String × ManifestEntry),
      decodeSkills (l.map (fun kv => (kv.1, encodeEntry kv.2))) = some l := by
    intro l
    induction l with
    | nil => rfl
    | cons kv rest ih => simp [decodeSkills, decodeEntry_encodeEntry, ih]
  simp [decodeManifest, writeManifestV, JVal.getProp, List.find?, key]

/-- C4: round-trip law for the manifest store — for every structurally
valid manifest at the current schema version (all required entry fields
present), writing the manifest and reading it back yields the identical
persisted value (migration passes it through and validation accepts it),
and decoding that value recovers the original manifest exactly. -/
theorem manifest_roundtrip (m : Manifest)
    (hv : m.schema_version = MANIFEST_SCHEMA_VERSION)
    (he : ∀ kv ∈ m.skills, kv.2.requiredFieldsPresent) :
    readManifestV (some (writeManifestV m)) = writeManifestV m ∧
    decodeManifest (writeManifestV m) = some m := by
  refine ⟨?_, decodeManifest_write m⟩
  simp [readManifestV, migrate_write m hv, validateManifest_write m hv he]

/-- C4 witness: the round trip at a concrete one-entry manifest. -/
theorem manifest_roundtrip_witness :
    sampleManifest.schema_version = MANIFEST_SCHEMA_VERSION ∧
    (∀ kv ∈ sampleManifest.skills, kv.2.requiredFieldsPresent) ∧
    (readManifestV (some (writeManifestV sampleManifest)) = writeManifestV sampleManifest ∧
     decodeManifest (writeManifestV sampleManifest) = some sampleManifest) :=
  ⟨rfl, by decide, manifest_roundtrip sampleManifest rfl (by decide)⟩

/-- C2: contrary to the claim (and to the repository's own test suite,
which expects `migrateManifest({schema_version: 99, ...})` to throw a
"newer than supported" error), the shipped `migrateManifest` silently
resets any manifest with a numerically greater schema version to the
empty manifest, and `readManifest` then returns that empty manifest
instead of propagating a `ManifestSchemaVersionError`. -/
theorem migrateManifest_future_version_resets :
    migrateManifestV (.obj [("schema_version", .num 2), ("skills", .obj [])]) =
      createEmptyManifestV ∧
    migrateManifestV (.obj [("schema_version", .num 99), ("skills", .obj [])]) =
      createEmptyManifestV ∧
    readManifestV (some (.obj [("schema_version", .num 99), ("skills", .obj [])])) =
      createEmptyManifestV :=
  ⟨rfl, rfl, rfl⟩

theorem acquireLoop_timedOut (env : Nat → Bool) (eps : Nat → Nat)
    (henv : ∀ i, env i = false) :
    ∀ fuel i elapsed delay, 25 ≤ delay → LOCK_TIMEOUT_MS ≤ elapsed + 25 * fuel →
      (acquireLoop env eps fuel i elapsed delay).1 = .timedOut ∧
      LOCK_TIMEOUT_MS ≤ (acquireLoop env eps fuel i elapsed delay).2.2 := by
  intro fuel
  induction fuel with
  | zero =>
    intro i elapsed delay _ hb
    have hb' : LOCK_TIMEOUT_MS ≤ elapsed := by omega
    rw [acquireLoop, if_neg (by omega)]
    exact ⟨rfl, hb'⟩
  | succ fuel ih =>
    intro i elapsed delay hd hb
    rw [acquireLoop]
    by_cases hel : elapsed < LOCK_TIMEOUT_MS
    · rw [if_pos hel, henv i]
      simp only [Bool.false_eq_true, if_false]
      exact ih (i + 1) (elapsed + delay + eps i) (min (delay * 2) 250)
        (by omega) (by omega)
    · rw [if_neg hel]
      exact ⟨rfl, Nat.le_of_not_lt hel⟩

theorem acquireLoop_sleeps (env : Nat → Bool) (eps : Nat → Nat) :
    ∀ fuel i elapsed delay k, k < (acquireLoop env eps fuel i elapsed delay).2.1.length →
      (acquireLoop env eps fuel i elapsed delay).2.1.get? k = some (delayEvolve delay k) := by
  intro fuel
  induction fuel with
  | zero =>
    intro i elapsed delay k hk
    rw [acquireLoop] at hk ⊢
    by_cases hel : elapsed < LOCK_TIMEOUT_MS
    · rw [if_pos hel] at hk ⊢
      cases he : env i <;> rw [he] at hk <;> simp at hk
    · rw [if_neg hel] at hk
      simp at hk
  | succ fuel ih =>
    intro i elapsed delay k hk
    rw [acquireLoop] at hk ⊢
    by_cases hel : elapsed < LOCK_TIMEOUT_MS
    · rw [if_pos hel] at hk ⊢
      cases he : env i
      · rw [he] at hk
        simp only [Bool.false_eq_true, if_false] at hk ⊢
        cases k with
        | zero => rfl
        | succ k' =>
          have := ih (i + 1) (elapsed + delay + eps i) (min (delay * 2) 250) k'
            (by simpa using hk)
          simpa [delayEvolve] using this
      · rw [he] at hk
        simp at hk
    · rw [if_neg hel] at hk
      simp at hk

theorem delayEvolve_from (k j : Nat) :
    delayEvolve (min (25 * 2 ^ j) 250) k = min (25 * 2 ^ (j + k)) 250 := by
  induction k generalizing j with
  | zero => rfl
  | succ k ih =>
    rw [delayEvolve]
    have hmin : min (min (25 * 2 ^ j) 250 * 2) 250 = min (25 * 2 ^ j * 2) 250 := by omega
    have hpow : 25 * 2 ^ j * 2 = 25 * 2 ^ (j + 1) := by ring
    have hexp : j + 1 + k = j + (k + 1) := by omega
    rw [hmin, hpow, ih (j + 1), hexp]

theorem delayEvolve_25 (k : Nat) : delayEvolve 25 k = min (25 * 2 ^ k) 250 := by
  have h0 : (25 : Nat) = min (25 * 2 ^ 0) 250 := by decide
  have hexp : 0 + k = k := by omega
  conv_lhs => rw [h0]
  rw [delayEvolve_from k 0, hexp]

/-- C5: while the lock file exists (and stays fresh) for the whole
attempt, `acquireManifestLock` keeps retrying with the exponentially
doubling, 250 ms-capped delay sequence `min (25·2^k) 250`, terminates as
soon as the elapsed time reaches the 5000 ms ceiling (200 loop
iterations always suffice, for any sleep jitter `eps`), fails with the
timeout error, and `withManifestLock` then propagates that error without
ever running the mutation: the manifest state is returned unchanged. -/
theorem acquireManifestLock_timeout (env : Nat → Bool) (eps : Nat → Nat) (fuel : Nat)
    (fn : JVal → JVal) (m : JVal)
    (henv : ∀ i, env i = false) (hfuel : 200 ≤ fuel) :
    (acquireManifestLock env eps fuel).1 = .timedOut ∧
    LOCK_TIMEOUT_MS ≤ (acquireManifestLock env eps fuel).2.2 ∧
    (∀ k, k < (acquireManifestLock env eps fuel).2.1.length →
      (acquireManifestLock env eps fuel).2.1.get? k = some (min (25 * 2 ^ k) 250)) ∧
    withManifestLock env eps fuel fn m = (.error "Timed out waiting for manifest lock", m) := by
  have hb : LOCK_TIMEOUT_MS ≤ 0 + 25 * fuel := by
    simp only [LOCK_TIMEOUT_MS]
    omega
  have hmain := acquireLoop_timedOut env eps henv fuel 0 0 LOCK_INITIAL_DELAY_MS
    (by simp [LOCK_INITIAL_DELAY_MS]) hb
  refine ⟨hmain.1, hmain.2, ?_, ?_⟩
  · intro k hk
    have hk' : k < (acquireLoop env eps fuel 0 0 LOCK_INITIAL_DELAY_MS).2.1.length := hk
    have hs := acquireLoop_sleeps env eps fuel 0 0 LOCK_INITIAL_DELAY_MS k hk'
    simp only [LOCK_INITIAL_DELAY_MS] at hs
    rw [delayEvolve_25 k] at hs
    exact hs
  · simp [withManifestLock, acquireManifestLock, hmain.1]

/-- C5 witness: a concrete contended run with fuel 200, the identity
mutation, and the empty manifest. -/
theorem acquireManifestLock_timeout_witness :
    (∀ i, envHeld i = false) ∧ 200 ≤ 200 ∧
    ((acquireManifestLock envHeld epsZero 200).1 = .timedOut ∧
     LOCK_TIMEOUT_MS ≤ (acquireManifestLock envHeld epsZero 200).2.2 ∧
     (∀ k, k < (acquireManifestLock envHeld epsZero 200).2.1.length →
       (acquireManifestLock envHeld epsZero 200).2.1.get? k = some (min (25 * 2 ^ k) 250)) ∧
     withManifestLock envHeld epsZero 200 id createEmptyManifestV =
       (.error "Timed out waiting for manifest lock", createEmptyManifestV)) :=
  ⟨fun _ => rfl, by omega,
   acquireManifestLock_timeout envHeld epsZero 200 id createEmptyManifestV
     (fun _ => rfl) (by omega)⟩

/-- C3 (code bug evidence): on a staged tree containing `SKILL.md` and
`payload.exe`, `copySkill` fails naming the blocked filename and leaves
the target untouched (those parts of the claim hold), but the early
`return` in the blocked-file branch skips staging cleanup, so the
staging directory is left behind, contradicting "cleaned up on every
exit path". -/
theorem copySkill_blocked_file_types :
    (copySkill "/tmp/skills-install-u1" blockedSampleForest "/ws/.agents/skills/alpha").result.success = false ∧
    (copySkill "/tmp/skills-install-u1" blockedSampleForest "/ws/.agents/skills/alpha").result.error =
      some "Blocked file types found: /tmp/skills-install-u1/payload.exe" ∧
    (copySkill "/tmp/skills-install-u1" blockedSampleForest "/ws/.agents/skills/alpha").targetPublished = false ∧
    (copySkill "/tmp/skills-install-u1" blockedSampleForest "/ws/.agents/skills/alpha").stagingLeft = true := by
  refine ⟨?_, ?_, ?_, ?_⟩ <;> rfl

mutual
theorem listFilesTree_symlink_error :
    ∀ (t : FTree) (pre : String), t.hasSymlink = true →
      ∃ e, t.listFiles pre = .error e
  | .file _, _, h => by simp [FTree.hasSymlink] at h
  | .symlink n, pre, _ =>
    ⟨"Symlinks not allowed in skill packages: " ++ pre ++ "/" ++ n, rfl⟩
  | .dir n children, pre, h => by
    simp only [FTree.hasSymlink] at h
    simpa [FTree.listFiles] using
      listFilesForest_symlink_error children (pre ++ "/" ++ n) h

theorem listFilesForest_symlink_error :
    ∀ (f : FForest) (pre : String), f.hasSymlink = true →
      ∃ e, FForest.listFiles pre f = .error e
  | .nil, _, h => by simp [FForest.hasSymlink] at h
  | .cons t rest, pre, h => by
    simp only [FForest.hasSymlink, Bool.or_eq_true] at h
    rcases h with h | h
    · obtain ⟨e, he⟩ := listFilesTree_symlink_error t pre h
      exact ⟨e, by simp only [FForest.listFiles, he]; rfl⟩
    · cases ht : t.listFiles pre with
      | error e => exact ⟨e, by simp only [FForest.listFiles, ht]; rfl⟩
      | ok files =>
        obtain ⟨e, he⟩ := listFilesForest_symlink_error rest pre h
        exact ⟨e, by simp only [FForest.listFiles, ht, he]; rfl⟩
end

/-- C8: a source tree containing a symbolic link anywhere makes
`copySkill` fail (the staged walk throws on the symlink, never resolving
it) with the target path untouched; the staging directory is cleaned on
this thrown-error path. -/
theorem copySkill_symlink_rejected (pre : String) (f : FForest) (t : String)
    (h : f.hasSymlink = true) :
    (copySkill pre f t).result.success = false ∧
    (copySkill pre f t).targetPublished = false ∧
    (copySkill pre f t).stagingLeft = false := by
  obtain ⟨e, he⟩ := listFilesForest_symlink_error f pre h
  simp [copySkill, he]

/-- C8 witness: the symlink rejection at a concrete staged tree. -/
theorem copySkill_symlink_rejected_witness :
    FForest.hasSymlink symlinkSampleForest = true ∧
    ((copySkill "/tmp/skills-install-u2" symlinkSampleForest "/ws/.roo/skills/alpha").result.success = false ∧
     (copySkill "/tmp/skills-install-u2" symlinkSampleForest "/ws/.roo/skills/alpha").targetPublished = false ∧
     (copySkill "/tmp/skills-install-u2" symlinkSampleForest "/ws/.roo/skills/alpha").stagingLeft = false) :=
  ⟨rfl, copySkill_symlink_rejected "/tmp/skills-install-u2" symlinkSampleForest
    "/ws/.roo/skills/alpha" rfl⟩

theorem rollbackAll_not_mem (rmOk : String → Bool) :
    ∀ (results : List CopyResultR) (fs : FS) (x : String),
      x ∉ fs → x ∉ rollbackAll rmOk results fs := by
  intro results
  induction results with
  | nil => intro fs x hx; exact hx
  | cons r rest ih =>
    intro fs x hx
    simp only [rollbackAll, List.foldl_cons] at *
    apply ih
    split
    · split
      · exact fun hm => hx (List.mem_of_mem_filter hm)
      · exact hx
    · exact hx

theorem rollbackAll_removes (rmOk : String → Bool) (hrm : ∀ t, rmOk t = true) :
    ∀ (results : List CopyResultR) (fs : FS) (r : CopyResultR),
      r ∈ results → r.success = true → r.targetPath ∉ rollbackAll rmOk results fs := by
  intro results
  induction results with
  | nil => intro fs r hr; simp at hr
  | cons r0 rest ih =>
    intro fs r hr hs
    rcases List.mem_cons.mp hr with heq | hmem
    · subst heq
      simp only [rollbackAll, List.foldl_cons, hs, hrm r.targetPath, if_true]
      apply rollbackAll_not_mem
      simp [List.mem_filter]
    · simp only [rollbackAll, List.foldl_cons]
      exact ih _ r hmem hs

theorem txGo_all_ok (rmOk : String → Bool) :
    ∀ (steps : List TxStep) (fs : FS) (acc : List CopyResultR),
      (∀ s ∈ steps, s.copyOk = true) →
      (txGo rmOk steps fs acc).1.success = true ∧
      (txGo rmOk steps fs acc).1.installed.length = acc.length + steps.length := by
  intro steps
  induction steps with
  | nil => intro fs acc _; exact ⟨rfl, by simp [txGo]⟩
  | cons s rest ih =>
    intro fs acc h
    have hs : s.copyOk = true := h s (by simp)
    rw [txGo]
    simp only [runCopyStep, hs, if_true]
    have hrec := ih (publishTarget s.targetPath fs)
      (acc ++ [{ success := true, filesCount := 0, targetPath := s.targetPath, error := none }])
      (fun s' hs' => h s' (by simp [hs']))
    refine ⟨hrec.1, ?_⟩
    rw [hrec.2]
    simp
    omega

theorem txGo_first_fail (rmOk : String → Bool) (bad : TxStep) (post : List TxStep)
    (hbad : bad.copyOk = false) :
    ∀ (pre : List TxStep) (fs : FS) (acc : List CopyResultR),
      (∀ s ∈ pre, s.copyOk = true) →
      (txGo rmOk (pre ++ bad :: post) fs acc).1.success = false ∧
      (txGo rmOk (pre ++ bad :: post) fs acc).1.installed.length = acc.length + pre.length + 1 ∧
      ((∀ t, rmOk t = true) →
        (∀ r ∈ acc, r.success = true →
          r.targetPath ∉ (txGo rmOk (pre ++ bad :: post) fs acc).2) ∧
        (∀ s ∈ pre, s.targetPath ∉ (txGo rmOk (pre ++ bad :: post) fs acc).2)) := by
  intro pre
  induction pre with
  | nil =>
    intro fs acc _
    rw [List.nil_append, txGo]
    simp only [runCopyStep, hbad, Bool.false_eq_true, if_false]
    refine ⟨by simp, by simp, fun hrm => ⟨?_, by simp⟩⟩
    intro r hr hs
    exact rollbackAll_removes rmOk hrm _ fs r (by simp [hr]) hs
  | cons s pre' ih =>
    intro fs acc h
    have hs : s.copyOk = true := h s (by simp)
    rw [List.cons_append, txGo]
    simp only [runCopyStep, hs, if_true]
    have hrec := ih (publishTarget s.targetPath fs)
      (acc ++ [{ success := true, filesCount := 0, targetPath := s.targetPath, error := none }])
      (fun s' hs' => h s' (by simp [hs']))
    refine ⟨hrec.1, ?_, fun hrm => ⟨?_, ?_⟩⟩
    · rw [hrec.2.1]
      simp
      omega
    · intro r hr hrs
      exact (hrec.2.2 hrm).1 r (by simp [hr]) hrs
    · intro s' hs'
      rcases List.mem_cons.mp hs' with heq | hmem
      · subst heq
        exact (hrec.2.2 hrm).1
          { success := true, filesCount := 0, targetPath := s'.targetPath, error := none }
          (by simp) rfl
      · exact (hrec.2.2 hrm).2 s' hmem

/-- C1: if every step before `bad` succeeds and `bad`'s copy fails, the
transaction stops there (one result per executed step, `pre.length + 1`
in all), reports `success := false`, and — when the best-effort removals
succeed — every target published by the earlier successful steps is
removed from the filesystem; if instead every copy succeeds, the
transaction reports `success := true` with one result per step. -/
theorem executeInstallTransaction_spec :
    (∀ (rmOk : String → Bool) (pre : List TxStep) (bad : TxStep) (post : List TxStep) (fs : FS),
      (∀ s ∈ pre, s.copyOk = true) → bad.copyOk = false →
      (executeInstallTransaction rmOk (pre ++ bad :: post) fs).1.success = false ∧
      (executeInstallTransaction rmOk (pre ++ bad :: post) fs).1.installed.length = pre.length + 1 ∧
      ((∀ t, rmOk t = true) → ∀ s ∈ pre,
        s.targetPath ∉ (executeInstallTransaction rmOk (pre ++ bad :: post) fs).2)) ∧
    (∀ (rmOk : String → Bool) (steps : List TxStep) (fs : FS),
      (∀ s ∈ steps, s.copyOk = true) →
      (executeInstallTransaction rmOk steps fs).1.success = true ∧
      (executeInstallTransaction rmOk steps fs).1.installed.length = steps.length) := by
  constructor
  · intro rmOk pre bad post fs hpre hbad
    have h := txGo_first_fail rmOk bad post hbad pre fs [] hpre
    exact ⟨h.1, by simpa using h.2.1, fun hrm => (h.2.2 hrm).2⟩
  · intro rmOk steps fs h
    have := txGo_all_ok rmOk steps fs [] h
    exact ⟨this.1, by simpa using this.2⟩

/-- C1 witness: a two-step batch whose second copy fails; the first
step's published target is rolled back and the batch reports failure. -/
theorem executeInstallTransaction_spec_witness :
    (∀ s ∈ [stepA], s.copyOk = true) ∧ stepB.copyOk = false ∧
    ((executeInstallTransaction rmAlways ([stepA] ++ stepB :: []) []).1.success = false ∧
     (executeInstallTransaction rmAlways ([stepA] ++ stepB :: []) []).1.installed.length =
       [stepA].length + 1 ∧
     ((∀ t, rmAlways t = true) → ∀ s ∈ [stepA],
       s.targetPath ∉ (executeInstallTransaction rmAlways ([stepA] ++ stepB :: []) []).2)) :=
  ⟨by decide, by decide,
   executeInstallTransaction_spec.1 rmAlways [stepA] stepB [] [] (by decide) (by decide)⟩

end SkillsCli
